import Mathlib

/-!
Verification of the subprocess RPC correlation bridge of the Kiwi TCMS MCP
HTTP wrapper (`wrapper.js`).

The bridge keeps a `requestQueue` of pending calls, writes newline-terminated
JSON requests to a worker's stdin, splits the worker's stdout into lines
(buffering a trailing incomplete fragment), and matches each parsed response
line to a pending call by its `id` field, resolving that call's promise.

We embed the correlation state and the four handler routines
(`forwardToMCP`, `handleMCPResponse`, the per-call timeout timer, and the
process `close` handler) as pure functions on an explicit state, and the
stdout `data` handler's line-splitting as a fold over text chunks.
-/

namespace KiwiBridge

/-- JavaScript values that can appear in the `id` field of a request or of a
parsed response.  `forwardToMCP` tests the field for truthiness
(`request.id || Date.now()`) and `handleMCPResponse` compares ids with
JavaScript strict equality, which never identifies values of different
runtime types, so an inductive with one constructor per runtime shape is a
faithful model of both operations. -/
inductive JsVal where
  | undef
  | nullv
  | num (n : Nat)
  | str (s : String)
  deriving DecidableEq, Repr

/-- JavaScript truthiness test on an `id` field: `undefined`, `null`, `0` and
the empty string are falsy. -/
def JsVal.falsy : JsVal → Bool
  | .undef => true
  | .nullv => true
  | .num n => n = 0
  | .str s => s = ""

/-- The constant `const timeout = 120000; // 2 minutes` in `forwardToMCP`: the fixed
per-call deadline window, a constant of the source, not a per-call input. -/
def timeoutMs : Nat := 120000

/-- The call `setTimeout(() => this.initializeMCP(), 5000)` in the `close` handler:
the fixed restart backoff. -/
def restartDelayMs : Nat := 5000

/-- The identifier actually registered for a request:
`const requestId = request.id || Date.now();`. -/
def effectiveId (reqId : JsVal) (now : Nat) : JsVal :=
  if reqId.falsy then .num now else reqId

/-- A request submitted to the HTTP `/mcp` endpoint and forwarded to the
worker: its `id` field (used for correlation) and the rest of its body,
opaque to the bridge. -/
structure Request (P : Type) where
  id : JsVal
  body : P
  deriving DecidableEq, Repr

/-- One element of `this.requestQueue`: the pushed object
`{ id: requestId, resolve, reject }`.  The `resolve`/`reject` closures of a
registration are modelled by a unique `token` (the identity of that call's
promise); `deadline` records when that registration's `setTimeout` timer
fires (registration time plus `timeoutMs`). -/
structure Entry where
  token : Nat
  id : JsVal
  deadline : Nat
  deriving DecidableEq, Repr

/-- The terminal outcome delivered to a call's promise: `request.resolve(response)`
with the parsed response, or `reject(new Error('Request timeout after 2 minutes'))`. -/
inductive Outcome (P : Type) where
  | success (id : JsVal) (payload : P)
  | timeoutErr
  deriving DecidableEq, Repr

/-- The mutable state of the wrapper that the claims are about:
`requestQueue` is the in-flight set in push order; `outcomes` is the log of
settled promises, keyed by the call's `token` (a promise settles at most
once); `nextToken` generates fresh promise identities; `isReady` is
`this.isReady`; `restartTimerSet` records that the `close` handler scheduled
`initializeMCP` after `restartDelayMs`; `wire` is the sequence of request
objects serialized to the worker's stdin. -/
structure BridgeState (P : Type) where
  requestQueue : List Entry
  outcomes : List (Nat × Outcome P)
  nextToken : Nat
  isReady : Bool
  restartTimerSet : Bool
  wire : List (Request P)
  deriving DecidableEq, Repr

/-- The wrapper's state right after construction: empty queue, no settled
promises. -/
def initState (P : Type) : BridgeState P :=
  { requestQueue := [], outcomes := [], nextToken := 0,
    isReady := false, restartTimerSet := false, wire := [] }

/-- Settling a promise: the first call to `resolve`/`reject` records the
outcome; any later call on the same (already settled) promise is a silent
no-op, as in JavaScript. -/
def settle {P : Type} (st : BridgeState P) (tok : Nat) (o : Outcome P) :
    BridgeState P :=
  if st.outcomes.any (fun q => q.1 == tok) then st
  else { st with outcomes := st.outcomes ++ [(tok, o)] }

/-- The step `this.requestQueue.findIndex(req => req.id === requestId)` followed by
`this.requestQueue.splice(queueIndex, 1)`: locate the first queue entry whose
id strictly equals `i`, and return it together with the queue with that one
entry removed; `none` when `findIndex` returns `-1`. -/
def removeFirst (i : JsVal) : List Entry → Option (Entry × List Entry)
  | [] => none
  | e :: rest =>
    if e.id = i then some (e, rest)
    else (removeFirst i rest).map (fun fe => (fe.1, e :: fe.2))

/-- The operation `forwardToMCP(request)` at registration time `now` (`Date.now()`):
computes `requestId = request.id || Date.now()`, pushes
`{ id: requestId, resolve, reject }` onto the queue, and writes
`JSON.stringify(request) + '\n'` — the original request object, with no
injected id — to the worker's stdin.  The timer it arms is modelled by the
new entry's `deadline`; its later firing is `fireTimeout`.  (The model takes
the `stdin.write` success path; a throwing write rejects the promise without
registering a timer and is exercised by no claim.) -/
def forwardToMCP {P : Type} (st : BridgeState P) (req : Request P) (now : Nat) :
    BridgeState P :=
  let requestId := effectiveId req.id now
  { st with
    requestQueue := st.requestQueue ++ [⟨st.nextToken, requestId, now + timeoutMs⟩],
    nextToken := st.nextToken + 1,
    wire := st.wire ++ [req] }

/-- A complete line delivered by the stdout splitter, as `handleMCPResponse`
classifies it: `noise` (does not start with `{` or `[`, skipped before
parsing), `badJson` (looks like JSON but `JSON.parse` throws — logged and
discarded), or a parsed value whose `id` property is `i` with opaque payload
`p` (a parsed object with no `id` field, or a parsed array, has
`response.id === undefined`, i.e. `i = .undef`). -/
inductive Line (P : Type) where
  | noise
  | badJson
  | msg (i : JsVal) (p : P)
  deriving DecidableEq, Repr

/-- The handler `handleMCPResponse(responseText)`: non-JSON and unparsable lines are
discarded with at most logging; for a parsed value, the first queue entry
whose id strictly equals `response.id` is spliced out and its promise
resolved with the response; when `findIndex` returns `-1` nothing happens. -/
def handleMCPResponse {P : Type} (st : BridgeState P) (l : Line P) :
    BridgeState P :=
  match l with
  | .noise => st
  | .badJson => st
  | .msg i p =>
    match removeFirst i st.requestQueue with
    | some (e, rest) => settle { st with requestQueue := rest } e.token (.success i p)
    | none => st

/-- The `setTimeout` callback armed by `forwardToMCP`: the closure captured
its own registration's `requestId` and `reject`.  It looks up the first queue
entry with that id; if one exists it is spliced out and the closure's own
promise — the promise of the registration `owner` that armed the timer, not
necessarily the promise of the spliced entry — is rejected with the timeout
error. -/
def fireTimeout {P : Type} (st : BridgeState P) (owner : Nat) (requestId : JsVal) :
    BridgeState P :=
  match removeFirst requestId st.requestQueue with
  | some (_, rest) => settle { st with requestQueue := rest } owner .timeoutErr
  | none => st

/-- The `close` handler of the worker process: logs the exit code, clears
`this.isReady`, and schedules `initializeMCP` after `restartDelayMs`.  It
touches neither `requestQueue` nor any pending promise. -/
def handleClose {P : Type} (st : BridgeState P) : BridgeState P :=
  { st with isReady := false, restartTimerSet := true }

/-- Register a batch of calls, each with its `Date.now()` timestamp, by
iterating `forwardToMCP`. -/
def registerCalls {P : Type} (st : BridgeState P) :
    List (Request P × Nat) → BridgeState P
  | [] => st
  | rt :: rest => registerCalls (forwardToMCP st rt.1 rt.2) rest

/-- Feed a sequence of delivered lines to `handleMCPResponse` in arrival
order. -/
def processLines {P : Type} (st : BridgeState P) (ls : List (Line P)) :
    BridgeState P :=
  ls.foldl handleMCPResponse st

/-- The payloads of the response lines in `ls` that carry id `i`, in arrival
order. -/
def msgsFor {P : Type} (i : JsVal) (ls : List (Line P)) : List P :=
  ls.filterMap (fun l =>
    match l with
    | .msg j p => if j = i then some p else none
    | _ => none)

/-! ### The stdout line splitter

`this.mcpProcess.stdout.on('data', ...)` appends the chunk to
`this.responseBuffer`, splits on `'\n'`, keeps the last fragment
(`lines.pop() || ''`) as the new buffer, and delivers the remaining complete
lines in order.  Text is modelled as `List Char`. -/

/-- Prepend a character to the first part of a split result. -/
def consHead (c : Char) : List (List Char) → List (List Char)
  | [] => [[c]]
  | l :: ls => (c :: l) :: ls

/-- The split `s.split('\n')` on text `s`: one part per maximal delimiter-free run,
with `n + 1` parts for `n` delimiters (so `splitNl [] = [[]]`, matching
`''.split('\n') = ['']`). -/
def splitNl : List Char → List (List Char)
  | [] => [[]]
  | c :: rest => if c = '\n' then [] :: splitNl rest else consHead c (splitNl rest)

/-- One firing of the stdout `data` handler on buffer contents `buffer` and
incoming chunk `chunk`: returns the complete lines delivered (everything but
the last part of the split) and the new buffer (the last part,
`lines.pop() || ''`). -/
def stdoutStep (buffer chunk : List Char) : List (List Char) × List Char :=
  let parts := splitNl (buffer ++ chunk)
  (parts.dropLast, parts.getLastD [])

/-- Run the stdout handler over a sequence of chunks, collecting every
delivered complete line in order and the final buffer contents. -/
def processChunks (buffer : List Char) :
    List (List Char) → List (List Char) × List Char
  | [] => ([], buffer)
  | ch :: rest =>
    let step := stdoutStep buffer ch
    let tail := processChunks step.2 rest
    (step.1 ++ tail.1, tail.2)

/-! ### Startup environment validation

`initializeMCP` reads `KIWI_BASE_URL` and `KIWI_TOKEN`; if either is falsy
(unset or empty) it prints configuration help and calls `process.exit(1)` —
fatal, nothing further runs, no retry.  Otherwise it spawns the worker with
both values (and `LOG_LEVEL || 'INFO'`) injected into the child environment. -/

/-- JavaScript falsiness of an optional environment string: unset or empty. -/
def envFalsy : Option String → Bool
  | none => true
  | some s => s = ""

/-- What startup does before arming any handler: exit the whole process with
code 1, or spawn the worker with the given environment values. -/
inductive StartResult where
  | fatalExit (code : Nat)
  | spawned (kiwiBaseUrl kiwiToken logLevel : String)
  deriving DecidableEq, Repr

/-- The empty string. -/
def emptyStr : String := ""

/-- The default log level injected when `LOG_LEVEL` is falsy. -/
def infoLevel : String := "INFO"

/-- The environment-validation and spawn step of `initializeMCP`. -/
def initializeMCPEnv (kiwiBaseUrl kiwiToken logLevel : Option String) :
    StartResult :=
  if envFalsy kiwiBaseUrl || envFalsy kiwiToken then .fatalExit 1
  else .spawned (kiwiBaseUrl.getD emptyStr) (kiwiToken.getD emptyStr)
    (if envFalsy logLevel then infoLevel else logLevel.getD emptyStr)

/-! ### Basic lemmas about the state operations -/

theorem settle_requestQueue {P : Type} (st : BridgeState P) (t : Nat) (o : Outcome P) :
    (settle st t o).requestQueue = st.requestQueue := by
  unfold settle; split <;> rfl

theorem settle_outcomes_eq {P : Type} (st : BridgeState P) (t : Nat) (o : Outcome P) :
    (settle st t o).outcomes = st.outcomes ∨
      (settle st t o).outcomes = st.outcomes ++ [(t, o)] := by
  unfold settle; split
  · exact Or.inl rfl
  · exact Or.inr rfl

theorem settle_of_fresh {P : Type} {st : BridgeState P} {t : Nat} (o : Outcome P)
    (h : ∀ q ∈ st.outcomes, q.1 ≠ t) :
    settle st t o = { st with outcomes := st.outcomes ++ [(t, o)] } := by
  unfold settle
  rw [if_neg]
  simp only [List.any_eq_true, beq_iff_eq, not_exists, not_and]
  exact fun q hq => h q hq

theorem settle_of_settled {P : Type} {st : BridgeState P} {t : Nat} (o : Outcome P)
    (h : ∃ q ∈ st.outcomes, q.1 = t) : settle st t o = st := by
  unfold settle
  rw [if_pos]
  simp only [List.any_eq_true, beq_iff_eq]
  exact h

theorem removeFirst_eq_none {i : JsVal} {l : List Entry}
    (h : ∀ e ∈ l, e.id ≠ i) : removeFirst i l = none := by
  induction l with
  | nil => rfl
  | cons e rest ih =>
    unfold removeFirst
    rw [if_neg (h e (List.mem_cons_self e rest))]
    rw [ih (fun f hf => h f (List.mem_cons_of_mem _ hf))]
    rfl

theorem removeFirst_some_mem {i : JsVal} {l : List Entry} {f : Entry}
    {l' : List Entry} (h : removeFirst i l = some (f, l')) : f ∈ l ∧ f.id = i := by
  induction l generalizing f l' with
  | nil => simp [removeFirst] at h
  | cons e rest ih =>
    unfold removeFirst at h
    by_cases hid : e.id = i
    · rw [if_pos hid] at h
      simp only [Option.some.injEq, Prod.mk.injEq] at h
      obtain ⟨hef, hrl⟩ := h
      subst hef
      exact ⟨List.mem_cons_self e rest, hid⟩
    · rw [if_neg hid] at h
      cases hr : removeFirst i rest with
      | none => rw [hr] at h; simp at h
      | some fl =>
        obtain ⟨f0, l0⟩ := fl
        rw [hr] at h
        simp only [Option.map_some', Option.some.injEq, Prod.mk.injEq] at h
        obtain ⟨hf, hl⟩ := h
        subst hf
        obtain ⟨hmem, hfid⟩ := ih hr
        exact ⟨List.mem_cons_of_mem _ hmem, hfid⟩

theorem removeFirst_sublist {i : JsVal} {l : List Entry} {f : Entry}
    {l' : List Entry} (h : removeFirst i l = some (f, l')) : l'.Sublist l := by
  induction l generalizing f l' with
  | nil => simp [removeFirst] at h
  | cons e rest ih =>
    unfold removeFirst at h
    by_cases hid : e.id = i
    · rw [if_pos hid] at h
      simp only [Option.some.injEq, Prod.mk.injEq] at h
      rw [← h.2]
      exact List.Sublist.cons e (List.Sublist.refl rest)
    · rw [if_neg hid] at h
      cases hr : removeFirst i rest with
      | none => rw [hr] at h; simp at h
      | some fl =>
        obtain ⟨f0, l0⟩ := fl
        rw [hr] at h
        simp only [Option.map_some', Option.some.injEq, Prod.mk.injEq] at h
        rw [← h.2]
        exact List.Sublist.cons₂ e (ih hr)

theorem mem_removeFirst_of_ne {i : JsVal} {l : List Entry} {f : Entry}
    {l' : List Entry} {e : Entry} (hmem : e ∈ l) (hne : e.id ≠ i)
    (h : removeFirst i l = some (f, l')) : e ∈ l' := by
  induction l generalizing f l' with
  | nil => cases hmem
  | cons g rest ih =>
    unfold removeFirst at h
    by_cases hg : g.id = i
    · rw [if_pos hg] at h
      simp only [Option.some.injEq, Prod.mk.injEq] at h
      rcases List.mem_cons.mp hmem with h1 | h1
      · exact absurd (h1 ▸ hg) hne
      · exact h.2 ▸ h1
    · rw [if_neg hg] at h
      cases hr : removeFirst i rest with
      | none => rw [hr] at h; simp at h
      | some fl =>
        obtain ⟨f0, l0⟩ := fl
        rw [hr] at h
        simp only [Option.map_some', Option.some.injEq, Prod.mk.injEq] at h
        rcases List.mem_cons.mp hmem with h1 | h1
        · exact h.2 ▸ (h1 ▸ List.mem_cons_self g l0)
        · exact h.2 ▸ List.mem_cons_of_mem _ (ih h1 hr)

theorem removeFirst_of_nodup {i : JsVal} {l : List Entry} {e : Entry}
    (hnd : (l.map Entry.id).Nodup) (hmem : e ∈ l) (hid : e.id = i) :
    ∃ l', removeFirst i l = some (e, l') := by
  induction l with
  | nil => cases hmem
  | cons g rest ih =>
    simp only [List.map_cons, List.nodup_cons] at hnd
    by_cases hg : g.id = i
    · have heg : e = g := by
        rcases List.mem_cons.mp hmem with h1 | h1
        · exact h1
        · exfalso
          have hmm : g.id ∈ rest.map Entry.id := by
            rw [hg, ← hid]
            exact List.mem_map_of_mem Entry.id h1
          exact hnd.1 hmm
      refine ⟨rest, ?_⟩
      unfold removeFirst
      rw [if_pos hg, heg]
    · have he : e ∈ rest := by
        rcases List.mem_cons.mp hmem with h1 | h1
        · exact absurd (h1 ▸ hid) hg
        · exact h1
      obtain ⟨l0, hl0⟩ := ih hnd.2 he
      refine ⟨g :: l0, ?_⟩
      unfold removeFirst
      rw [if_neg hg, hl0]
      rfl

theorem not_mem_id_removeFirst {i : JsVal} {l : List Entry} {f : Entry}
    {l' : List Entry} (hnd : (l.map Entry.id).Nodup)
    (h : removeFirst i l = some (f, l')) : ∀ g ∈ l', g.id ≠ i := by
  induction l generalizing f l' with
  | nil => simp [removeFirst] at h
  | cons e rest ih =>
    simp only [List.map_cons, List.nodup_cons] at hnd
    unfold removeFirst at h
    by_cases hid : e.id = i
    · rw [if_pos hid] at h
      simp only [Option.some.injEq, Prod.mk.injEq] at h
      intro g hg hgid
      exact hnd.1 (hid ▸ hgid ▸ List.mem_map_of_mem Entry.id (h.2 ▸ hg))
    · rw [if_neg hid] at h
      cases hr : removeFirst i rest with
      | none => rw [hr] at h; simp at h
      | some fl =>
        obtain ⟨f0, l0⟩ := fl
        rw [hr] at h
        simp only [Option.map_some', Option.some.injEq, Prod.mk.injEq] at h
        intro g hg
        rcases List.mem_cons.mp (h.2 ▸ hg) with h1 | h1
        · exact h1 ▸ hid
        · exact ih hnd.2 hr g h1

theorem processLines_cons {P : Type} (st : BridgeState P) (l : Line P)
    (ls : List (Line P)) :
    processLines st (l :: ls) = processLines (handleMCPResponse st l) ls := rfl

theorem handleMCPResponse_msg {P : Type} (st : BridgeState P) (i : JsVal) (p : P) :
    handleMCPResponse st (.msg i p) =
      match removeFirst i st.requestQueue with
      | some (e, rest) =>
        settle { st with requestQueue := rest } e.token (.success i p)
      | none => st := rfl

theorem outcomes_prefix_handle {P : Type} (st : BridgeState P) (l : Line P) :
    ∃ ts, (handleMCPResponse st l).outcomes = st.outcomes ++ ts := by
  cases l with
  | noise => exact ⟨[], (List.append_nil _).symm⟩
  | badJson => exact ⟨[], (List.append_nil _).symm⟩
  | msg i p =>
    rw [handleMCPResponse_msg]
    cases hr : removeFirst i st.requestQueue with
    | none => exact ⟨[], (List.append_nil _).symm⟩
    | some fl =>
      obtain ⟨f, rest⟩ := fl
      rcases settle_outcomes_eq { st with requestQueue := rest } f.token
          (.success i p) with hs | hs
      · exact ⟨[], by rw [hs]; exact (List.append_nil _).symm⟩
      · exact ⟨[(f.token, .success i p)], hs⟩

theorem outcomes_prefix_process {P : Type} (st : BridgeState P)
    (ls : List (Line P)) :
    ∃ ts, (processLines st ls).outcomes = st.outcomes ++ ts := by
  induction ls generalizing st with
  | nil => exact ⟨[], (List.append_nil _).symm⟩
  | cons l ls ih =>
    obtain ⟨t1, h1⟩ := outcomes_prefix_handle st l
    obtain ⟨t2, h2⟩ := ih (handleMCPResponse st l)
    exact ⟨t1 ++ t2, by rw [processLines_cons, h2, h1, List.append_assoc]⟩

theorem lookup_skip {β : Type} (t : Nat) (o : β) (A B : List (Nat × β))
    (h : ∀ q ∈ A, q.1 ≠ t) :
    List.lookup t (A ++ (t, o) :: B) = some o := by
  induction A with
  | nil => simp [List.lookup]
  | cons q A ih =>
    obtain ⟨k, b⟩ := q
    have hne : (t == k) = false := by
      simp only [beq_eq_false_iff_ne, ne_eq]
      exact fun ht => (h (k, b) (List.mem_cons_self _ _)) ht.symm
    simp only [List.cons_append, List.lookup, hne]
    exact ih (fun r hr => h r (List.mem_cons_of_mem _ hr))

theorem msgsFor_cons_noise {P : Type} (i : JsVal) (ls : List (Line P)) :
    msgsFor i (.noise :: ls) = msgsFor i ls := rfl

theorem msgsFor_cons_badJson {P : Type} (i : JsVal) (ls : List (Line P)) :
    msgsFor i (.badJson :: ls) = msgsFor i ls := rfl

theorem msgsFor_cons_msg {P : Type} (i j : JsVal) (q : P) (ls : List (Line P)) :
    msgsFor i (.msg j q :: ls) =
      if j = i then q :: msgsFor i ls else msgsFor i ls := by
  by_cases h : j = i <;> simp [msgsFor, List.filterMap_cons, h]

/-- Core induction for correlation correctness: an in-flight entry `e` whose
id is `i`, in a state with no duplicate ids, no duplicate promise tokens, and
`e`'s promise still unsettled, ends up resolved with exactly the payload of
the unique response line carrying id `i`, whatever other lines arrive around
it and in whatever order. -/
theorem tracked_resolution {P : Type} {e : Entry} {i : JsVal} {p : P} :
    ∀ (ls : List (Line P)) (st : BridgeState P),
      e ∈ st.requestQueue → e.id = i →
      (st.requestQueue.map Entry.id).Nodup →
      (st.requestQueue.map Entry.token).Nodup →
      (∀ q ∈ st.outcomes, q.1 ≠ e.token) →
      msgsFor i ls = [p] →
      List.lookup e.token (processLines st ls).outcomes
        = some (Outcome.success i p) := by
  intro ls
  induction ls with
  | nil =>
    intro st _ _ _ _ _ hms
    simp [msgsFor] at hms
  | cons l ls ih =>
    intro st hmem hid hndid hndtok hfresh hms
    cases l with
    | noise =>
      rw [processLines_cons]
      exact ih st hmem hid hndid hndtok hfresh hms
    | badJson =>
      rw [processLines_cons]
      exact ih st hmem hid hndid hndtok hfresh hms
    | msg j q =>
      by_cases hji : j = i
      · subst hji
        rw [msgsFor_cons_msg, if_pos rfl, List.cons_eq_cons] at hms
        obtain ⟨hqp, hrest⟩ := hms
        subst hqp
        obtain ⟨rest, hrf⟩ := removeFirst_of_nodup hndid hmem hid
        have hstep : handleMCPResponse st (.msg j q)
            = settle { st with requestQueue := rest } e.token
                (Outcome.success j q) := by
          rw [handleMCPResponse_msg, hrf]
        have hout1 : (settle { st with requestQueue := rest } e.token
            (Outcome.success j q)).outcomes
            = st.outcomes ++ [(e.token, Outcome.success j q)] := by
          rw [@settle_of_fresh P { st with requestQueue := rest } e.token
            (Outcome.success j q) hfresh]
        obtain ⟨ts, hts⟩ := outcomes_prefix_process
          (settle { st with requestQueue := rest } e.token
            (Outcome.success j q)) ls
        rw [processLines_cons, hstep, hts, hout1]
        simp only [List.append_assoc, List.singleton_append]
        exact lookup_skip e.token (Outcome.success j q) st.outcomes ts hfresh
      · rw [msgsFor_cons_msg, if_neg hji] at hms
        rw [processLines_cons]
        cases hr : removeFirst j st.requestQueue with
        | none =>
          have hstep : handleMCPResponse st (.msg j q) = st := by
            rw [handleMCPResponse_msg, hr]
          rw [hstep]
          exact ih st hmem hid hndid hndtok hfresh hms
        | some fl =>
          obtain ⟨f, rest⟩ := fl
          obtain ⟨hfmem, hfid⟩ := removeFirst_some_mem hr
          have hne : e.id ≠ j := by
            rw [hid]; exact fun hh => hji hh.symm
          have hemem : e ∈ rest := mem_removeFirst_of_ne hmem hne hr
          have hsub := removeFirst_sublist hr
          have hndid' : (rest.map Entry.id).Nodup :=
            (hsub.map Entry.id).nodup hndid
          have hndtok' : (rest.map Entry.token).Nodup :=
            (hsub.map Entry.token).nodup hndtok
          have hfe : f ≠ e := by
            intro hh
            exact hne (by rw [← hh, hfid])
          have hftok : f.token ≠ e.token := by
            intro hh
            exact hfe (List.inj_on_of_nodup_map hndtok hfmem hmem hh)
          set st1 := settle { st with requestQueue := rest } f.token
            (Outcome.success j q) with hst1
          have hstep : handleMCPResponse st (.msg j q) = st1 := by
            rw [hst1, handleMCPResponse_msg, hr]
          have hq1 : st1.requestQueue = rest := by
            rw [hst1, settle_requestQueue]
          have hmem1 : e ∈ st1.requestQueue := by
            rw [hq1]; exact hemem
          have hndid1 : (st1.requestQueue.map Entry.id).Nodup := by
            rw [hq1]; exact hndid'
          have hndtok1 : (st1.requestQueue.map Entry.token).Nodup := by
            rw [hq1]; exact hndtok'
          have hfresh1 : ∀ q' ∈ st1.outcomes, q'.1 ≠ e.token := by
            rw [hst1]
            rcases settle_outcomes_eq { st with requestQueue := rest } f.token
              (Outcome.success j q) with hoc | hoc
            · rw [hoc]
              exact hfresh
            · rw [hoc]
              intro q' hq'
              rcases List.mem_append.mp hq' with h1 | h1
              · exact hfresh q' h1
              · rcases List.mem_singleton.mp h1 with rfl
                exact hftok
          rw [hstep]
          exact ih st1 hmem1 hid hndid1 hndtok1 hfresh1 hms

/-- The entries that a batch of registrations appends to the queue, given the
first fresh promise token. -/
def entriesFrom {P : Type} (tok : Nat) : List (Request P × Nat) → List Entry
  | [] => []
  | rt :: rest =>
    ⟨tok, effectiveId rt.1.id rt.2, rt.2 + timeoutMs⟩ :: entriesFrom (tok + 1) rest

theorem registerCalls_queue {P : Type} :
    ∀ (rs : List (Request P × Nat)) (st : BridgeState P),
      (registerCalls st rs).requestQueue
        = st.requestQueue ++ entriesFrom st.nextToken rs := by
  intro rs
  induction rs with
  | nil => intro st; simp [registerCalls, entriesFrom]
  | cons rt rest ih =>
    intro st
    show (registerCalls (forwardToMCP st rt.1 rt.2) rest).requestQueue = _
    rw [ih]
    show (st.requestQueue
        ++ [⟨st.nextToken, effectiveId rt.1.id rt.2, rt.2 + timeoutMs⟩])
      ++ entriesFrom (st.nextToken + 1) rest = _
    rw [List.append_assoc, List.singleton_append]
    rfl

theorem registerCalls_outcomes {P : Type} :
    ∀ (rs : List (Request P × Nat)) (st : BridgeState P),
      (registerCalls st rs).outcomes = st.outcomes := by
  intro rs
  induction rs with
  | nil => intro st; rfl
  | cons rt rest ih =>
    intro st
    show (registerCalls (forwardToMCP st rt.1 rt.2) rest).outcomes = _
    rw [ih]
    rfl

theorem token_ge_of_mem_entriesFrom {P : Type} :
    ∀ (rs : List (Request P × Nat)) (tok : Nat) (e : Entry),
      e ∈ entriesFrom tok rs → tok ≤ e.token := by
  intro rs
  induction rs with
  | nil => intro tok e h; cases h
  | cons rt rest ih =>
    intro tok e h
    rcases List.mem_cons.mp h with h1 | h1
    · rw [h1]
    · exact Nat.le_of_lt (Nat.lt_of_lt_of_le (Nat.lt_succ_self tok)
        (ih (tok + 1) e h1))

theorem entriesFrom_tokens_nodup {P : Type} :
    ∀ (rs : List (Request P × Nat)) (tok : Nat),
      ((entriesFrom tok rs).map Entry.token).Nodup := by
  intro rs
  induction rs with
  | nil => intro tok; simp [entriesFrom]
  | cons rt rest ih =>
    intro tok
    rw [entriesFrom, List.map_cons, List.nodup_cons]
    refine ⟨?_, ih (tok + 1)⟩
    show tok ∉ (entriesFrom (tok + 1) rest).map Entry.token
    intro hmem
    obtain ⟨e, hemem, hetok⟩ := List.mem_map.mp hmem
    have := token_ge_of_mem_entriesFrom rest (tok + 1) e hemem
    omega

/-! ### The claims -/

/-- C1.  For every set of concurrently registered calls with pairwise-distinct
correlation identifiers, and for every arrival order of complete worker
response lines, each call resolves with exactly the payload of the response
that carries that call's own identifier: if `e` is any registered in-flight
entry and the delivered lines `ls` — in whatever order, with whatever other
lines interleaved — contain exactly one response bearing `e`'s id with
payload `p`, then `e`'s promise ends resolved with exactly that response. -/
theorem correlation_correctness {P : Type} (reqs : List (Request P × Nat))
    (ls : List (Line P)) (e : Entry) (p : P)
    (hids : ((registerCalls (initState P) reqs).requestQueue.map Entry.id).Nodup)
    (he : e ∈ (registerCalls (initState P) reqs).requestQueue)
    (hresp : msgsFor e.id ls = [p]) :
    List.lookup e.token
      (processLines (registerCalls (initState P) reqs) ls).outcomes
      = some (Outcome.success e.id p) := by
  have hq := registerCalls_queue reqs (initState P)
  have hout := registerCalls_outcomes reqs (initState P)
  apply tracked_resolution ls (registerCalls (initState P) reqs) he rfl hids
  · rw [hq]
    show ((entriesFrom 0 reqs).map Entry.token).Nodup
    exact entriesFrom_tokens_nodup reqs 0
  · rw [hout]
    intro q hq'
    cases hq'
  · exact hresp

/-- Two concrete calls with distinct ids whose responses arrive in the
opposite order. -/
def demoReqs : List (Request Nat × Nat) :=
  [(⟨.num 1, 0⟩, 5), (⟨.num 2, 0⟩, 7)]

/-- The two responses, later-submitted call answered first. -/
def demoLines : List (Line Nat) :=
  [.msg (.num 2) 22, .msg (.num 1) 11]

theorem correlation_correctness_witness :
    (((registerCalls (initState Nat) demoReqs).requestQueue.map Entry.id).Nodup
      ∧ (⟨0, .num 1, 120005⟩ : Entry)
          ∈ (registerCalls (initState Nat) demoReqs).requestQueue
      ∧ msgsFor (JsVal.num 1) demoLines = [11])
    ∧ List.lookup 0
        (processLines (registerCalls (initState Nat) demoReqs) demoLines).outcomes
        = some (Outcome.success (JsVal.num 1) 11) :=
  ⟨⟨by decide, by decide, by decide⟩,
    correlation_correctness demoReqs demoLines ⟨0, .num 1, 120005⟩ 11
      (by decide) (by decide) (by decide)⟩

/-! ### Lemmas about the line splitter -/

theorem consHead_ne_nil (c : Char) (s : List (List Char)) : consHead c s ≠ [] := by
  cases s <;> simp [consHead]

theorem splitNl_ne_nil : ∀ s : List Char, splitNl s ≠ [] := by
  intro s
  cases s with
  | nil => simp [splitNl]
  | cons c rest =>
    rw [splitNl]
    by_cases h : c = '\n'
    · rw [if_pos h]; simp
    · rw [if_neg h]; exact consHead_ne_nil c (splitNl rest)

theorem mem_splitNl_no_newline :
    ∀ (s : List Char) (l : List Char), l ∈ splitNl s → '\n' ∉ l := by
  intro s
  induction s with
  | nil =>
    intro l h
    rw [splitNl] at h
    rcases List.mem_singleton.mp h with rfl
    simp
  | cons c rest ih =>
    intro l h
    rw [splitNl] at h
    by_cases hc : c = '\n'
    · rw [if_pos hc] at h
      rcases List.mem_cons.mp h with rfl | h1
      · simp
      · exact ih l h1
    · rw [if_neg hc] at h
      cases hs : splitNl rest with
      | nil => exact absurd hs (splitNl_ne_nil rest)
      | cons m ms =>
        rw [hs] at h
        simp only [consHead] at h
        rcases List.mem_cons.mp h with rfl | h1
        · intro hmem
          rcases List.mem_cons.mp hmem with h2 | h2
          · exact hc h2.symm
          · exact ih m (hs ▸ List.mem_cons_self m ms) h2
        · exact ih l (hs ▸ List.mem_cons_of_mem m h1)

theorem splitNl_no_delim : ∀ {s : List Char}, '\n' ∉ s → splitNl s = [s] := by
  intro s
  induction s with
  | nil => intro _; rfl
  | cons c rest ih =>
    intro h
    have hc : c ≠ '\n' := fun hh => h (hh ▸ List.mem_cons_self c rest)
    rw [splitNl, if_neg hc, ih (fun hm => h (List.mem_cons_of_mem c hm))]
    rfl

/-- Merge a retained fragment onto the head of the split of the following
text (the algebra of `buffer + chunk` re-splitting). -/
def joinHead (x : List Char) : List (List Char) → List (List Char)
  | [] => [x]
  | l :: ls => (x ++ l) :: ls

theorem joinHead_ne_nil (x : List Char) (s : List (List Char)) :
    joinHead x s ≠ [] := by
  cases s <;> simp [joinHead]

theorem getLastD_cons_ne {α : Type} (x d : α) {s : List α} (h : s ≠ []) :
    (x :: s).getLastD d = s.getLastD d := by
  cases s with
  | nil => exact absurd rfl h
  | cons y ys => rfl

theorem getLastD_mem {α : Type} : ∀ (s : List α) (d : α), s ≠ [] →
    s.getLastD d ∈ s := by
  intro s
  induction s with
  | nil => intro d h; exact absurd rfl h
  | cons x xs ih =>
    intro d h
    cases hx : xs with
    | nil => simp [List.getLastD]
    | cons y ys =>
      subst hx
      rw [getLastD_cons_ne x d (by simp)]
      exact List.mem_cons_of_mem x (ih d (by simp))

theorem getLastD_append_ne {α : Type} (d : α) :
    ∀ (A : List α) {B : List α}, B ≠ [] → (A ++ B).getLastD d = B.getLastD d := by
  intro A
  induction A with
  | nil => intro B _; rfl
  | cons x A' ih =>
    intro B hB
    rw [List.cons_append, getLastD_cons_ne x d (fun hh => hB (List.append_eq_nil.mp hh).2),
      ih hB]

theorem splitNl_append : ∀ a b : List Char,
    splitNl (a ++ b) = (splitNl a).dropLast
      ++ joinHead ((splitNl a).getLastD []) (splitNl b) := by
  intro a
  induction a with
  | nil =>
    intro b
    cases hs : splitNl b with
    | nil => exact absurd hs (splitNl_ne_nil b)
    | cons m ms =>
      rw [List.nil_append, hs]
      simp [splitNl, joinHead]
  | cons c a' ih =>
    intro b
    by_cases hc : c = '\n'
    · subst hc
      rw [List.cons_append, splitNl, if_pos rfl, ih]
      cases hs : splitNl a' with
      | nil => exact absurd hs (splitNl_ne_nil a')
      | cons m ms =>
        rw [splitNl, if_pos rfl, hs]
        rw [List.dropLast_cons_of_ne_nil (List.cons_ne_nil m ms),
          getLastD_cons_ne [] [] (List.cons_ne_nil m ms), List.cons_append]
    · rw [List.cons_append, splitNl, if_neg hc, ih]
      cases hs : splitNl a' with
      | nil => exact absurd hs (splitNl_ne_nil a')
      | cons m ms =>
        cases ms with
        | nil =>
          cases hb : splitNl b with
          | nil => exact absurd hb (splitNl_ne_nil b)
          | cons r rs =>
            rw [splitNl, if_neg hc, hs]
            simp [consHead, joinHead]
        | cons m2 ms2 =>
          rw [splitNl, if_neg hc, hs]
          simp only [consHead]
          rw [List.dropLast_cons_of_ne_nil (List.cons_ne_nil m2 ms2),
            List.dropLast_cons_of_ne_nil (List.cons_ne_nil m2 ms2),
            getLastD_cons_ne m [] (List.cons_ne_nil m2 ms2),
            getLastD_cons_ne (c :: m) [] (List.cons_ne_nil m2 ms2)]
          simp [List.cons_append]

theorem processChunks_spec :
    ∀ (chunks : List (List Char)) (buffer : List Char), '\n' ∉ buffer →
      processChunks buffer chunks
        = ((splitNl (buffer ++ chunks.flatten)).dropLast,
           (splitNl (buffer ++ chunks.flatten)).getLastD []) := by
  intro chunks
  induction chunks with
  | nil =>
    intro buffer hb
    rw [List.flatten_nil, List.append_nil, splitNl_no_delim hb]
    rfl
  | cons ch rest ih =>
    intro buffer hb
    have hb' : '\n' ∉ (splitNl (buffer ++ ch)).getLastD [] :=
      mem_splitNl_no_newline (buffer ++ ch) _
        (getLastD_mem _ [] (splitNl_ne_nil (buffer ++ ch)))
    have hstep : processChunks buffer (ch :: rest)
        = ((splitNl (buffer ++ ch)).dropLast
            ++ (processChunks ((splitNl (buffer ++ ch)).getLastD []) rest).1,
           (processChunks ((splitNl (buffer ++ ch)).getLastD []) rest).2) := rfl
    rw [hstep, ih _ hb']
    have hS : splitNl (buffer ++ (ch :: rest).flatten)
        = (splitNl (buffer ++ ch)).dropLast
          ++ joinHead ((splitNl (buffer ++ ch)).getLastD [])
              (splitNl rest.flatten) := by
      rw [List.flatten_cons, ← List.append_assoc, splitNl_append]
    have hS2 : splitNl ((splitNl (buffer ++ ch)).getLastD [] ++ rest.flatten)
        = joinHead ((splitNl (buffer ++ ch)).getLastD [])
            (splitNl rest.flatten) := by
      rw [splitNl_append, splitNl_no_delim hb']
      rfl
    rw [hS, hS2]
    rw [List.dropLast_append_of_ne_nil _ (joinHead_ne_nil _ _),
      getLastD_append_ne [] _ (joinHead_ne_nil _ _)]

/-- C2.  For every sequence of text chunks fed to the worker-stdout handler,
splitting on the newline delimiter while retaining the trailing incomplete
fragment delivers exactly the complete lines of the concatenated input: for
every placement of chunk boundaries, the delivered lines are precisely the
parts of the concatenation before its last delimiter — each once, in order,
none duplicated or dropped, none containing a line terminator — and the
buffer retains exactly the trailing fragment. -/
theorem framed_stream_reader (chunks : List (List Char)) :
    (processChunks [] chunks).1 = (splitNl chunks.flatten).dropLast
    ∧ (processChunks [] chunks).2 = (splitNl chunks.flatten).getLastD []
    ∧ ∀ l ∈ (processChunks [] chunks).1, '\n' ∉ l := by
  have h := processChunks_spec chunks [] (by simp)
  rw [List.nil_append] at h
  refine ⟨by rw [h], by rw [h], ?_⟩
  intro l hl
  rw [h] at hl
  exact mem_splitNl_no_newline chunks.flatten l
    ((List.dropLast_sublist (splitNl chunks.flatten)).mem hl)

/-- Two chunks whose boundary falls in the middle of the second line. -/
def demoChunks : List (List Char) :=
  [['a', 'b', '\n', 'c'], ['d', '\n', 'e']]

theorem framed_stream_reader_witness :
    ((['a', 'b'] ∈ (processChunks [] demoChunks).1) ∧ '\n' ∉ (['a', 'b'] : List Char))
    ∧ processChunks [] demoChunks = ([['a', 'b'], ['c', 'd']], ['e']) :=
  ⟨⟨by decide, (framed_stream_reader demoChunks).2.2 ['a', 'b'] (by decide)⟩,
    by decide⟩

/-- Equation lemma for the timeout-timer callback. -/
theorem fireTimeout_eq {P : Type} (st : BridgeState P) (owner : Nat)
    (requestId : JsVal) :
    fireTimeout st owner requestId =
      match removeFirst requestId st.requestQueue with
      | some (_, rest) => settle { st with requestQueue := rest } owner .timeoutErr
      | none => st := rfl

/-- C3.  Every pending call receives at most one terminal outcome: resolving
a call by a matching response removes its (unique-id) entry from the
in-flight set, after which a duplicate response bearing the same identifier
and a timer expiry for that identifier are both exact no-ops — the handlers
return the state unchanged and, being total functions, raise no error. -/
theorem at_most_one_resolution {P : Type} (st : BridgeState P) (e : Entry)
    (i : JsVal) (p q : P) (tok : Nat)
    (hmem : e ∈ st.requestQueue) (hid : e.id = i)
    (hnodup : (st.requestQueue.map Entry.id).Nodup) :
    (∀ f ∈ (handleMCPResponse st (.msg i p)).requestQueue, f.id ≠ i)
    ∧ handleMCPResponse (handleMCPResponse st (.msg i p)) (.msg i q)
        = handleMCPResponse st (.msg i p)
    ∧ fireTimeout (handleMCPResponse st (.msg i p)) tok i
        = handleMCPResponse st (.msg i p) := by
  obtain ⟨rest, hrf⟩ := removeFirst_of_nodup hnodup hmem hid
  have hq : (handleMCPResponse st (.msg i p)).requestQueue = rest := by
    rw [handleMCPResponse_msg, hrf, settle_requestQueue]
  have hnone : ∀ f ∈ rest, f.id ≠ i := not_mem_id_removeFirst hnodup hrf
  have hrnone : removeFirst i (handleMCPResponse st (.msg i p)).requestQueue
      = none := by
    rw [hq]
    exact removeFirst_eq_none hnone
  refine ⟨by rw [hq]; exact hnone, ?_, ?_⟩
  · rw [handleMCPResponse_msg, hrnone]
  · rw [fireTimeout_eq, hrnone]

/-- A state with two pending calls under distinct identifiers. -/
def demoSt3 : BridgeState Nat :=
  { requestQueue := [⟨0, .num 5, 100⟩, ⟨1, .num 6, 100⟩], outcomes := [],
    nextToken := 2, isReady := true, restartTimerSet := false, wire := [] }

theorem at_most_one_resolution_witness :
    ((⟨0, .num 5, 100⟩ : Entry) ∈ demoSt3.requestQueue
      ∧ (demoSt3.requestQueue.map Entry.id).Nodup)
    ∧ (∀ f ∈ (handleMCPResponse demoSt3 (.msg (.num 5) 7)).requestQueue,
        f.id ≠ .num 5)
    ∧ handleMCPResponse (handleMCPResponse demoSt3 (.msg (.num 5) 7))
        (.msg (.num 5) 8) = handleMCPResponse demoSt3 (.msg (.num 5) 7)
    ∧ fireTimeout (handleMCPResponse demoSt3 (.msg (.num 5) 7)) 0 (.num 5)
        = handleMCPResponse demoSt3 (.msg (.num 5) 7) :=
  ⟨⟨by decide, by decide⟩,
    (at_most_one_resolution demoSt3 ⟨0, .num 5, 100⟩ (.num 5) 7 8 0
      (by decide) (by decide) (by decide)).1,
    (at_most_one_resolution demoSt3 ⟨0, .num 5, 100⟩ (.num 5) 7 8 0
      (by decide) (by decide) (by decide)).2.1,
    (at_most_one_resolution demoSt3 ⟨0, .num 5, 100⟩ (.num 5) 7 8 0
      (by decide) (by decide) (by decide)).2.2⟩

/-- Two calls in flight, then the worker closes. -/
def demoSt4 : BridgeState Nat :=
  registerCalls (initState Nat) [(⟨.num 1, 0⟩, 0), (⟨.num 2, 0⟩, 0)]

/-- C4 counterexample.  With two calls in flight, the `close` handler leaves
both entries in the in-flight set and settles no promise at all: contrary to
the claim, the pending calls are not failed with any outcome (there is no
worker-crash outcome in the code) and they all remain in flight. -/
theorem close_does_not_fail_pending :
    demoSt4.requestQueue.length = 2
    ∧ (handleClose demoSt4).requestQueue = demoSt4.requestQueue
    ∧ (handleClose demoSt4).outcomes = [] := by decide

/-- C4 amended.  Whenever the worker process exits, the `close` handler only
clears the ready flag and schedules a restart after the fixed 5-second
backoff; it does not touch the in-flight set and settles no pending call's
promise, so all pending calls remain in flight and can terminate only via
their own timers or later responses. -/
theorem close_keeps_pending {P : Type} (st : BridgeState P) :
    (handleClose st).requestQueue = st.requestQueue
    ∧ (handleClose st).outcomes = st.outcomes
    ∧ (handleClose st).isReady = false
    ∧ (handleClose st).restartTimerSet = true
    ∧ restartDelayMs = 5000 :=
  ⟨rfl, rfl, rfl, rfl, rfl⟩

/-- Two registrations with the same identifier. -/
def dupSt : BridgeState Nat :=
  forwardToMCP (forwardToMCP (initState Nat) ⟨.num 5, 0⟩ 10) ⟨.num 5, 1⟩ 20

/-- C5 counterexample.  Registering a call whose identifier is already in
flight is not rejected: after registering id 5 twice, the in-flight set
holds two entries with the same identifier — registration changed the set
and produced no `DuplicateId` error (the registration path is total and has
no duplicate check). -/
theorem duplicate_id_not_rejected :
    dupSt.requestQueue.map Entry.id = [.num 5, .num 5]
    ∧ dupSt.requestQueue.length = 2 := by decide

/-- C5 amended.  Registration performs no duplicate check at all:
`forwardToMCP` unconditionally appends a fresh entry for the computed
identifier, so a call whose identifier is already in flight simply creates a
second in-flight entry with that identifier. -/
theorem register_always_appends {P : Type} (st : BridgeState P)
    (req : Request P) (now : Nat) :
    (forwardToMCP st req now).requestQueue
      = st.requestQueue
        ++ [⟨st.nextToken, effectiveId req.id now, now + timeoutMs⟩] := rfl

/-- C6.  A delivered line that does not parse as the expected JSON envelope
(whether non-JSON noise or malformed JSON), and a well-formed response whose
identifier matches no pending call, are all discarded with no effect: the
handler — a total function, so no error and no termination of stream
processing — returns the state unchanged, resolving no call and leaving
every pending call in place. -/
theorem unmatched_and_malformed_dropped {P : Type} (st : BridgeState P)
    (i : JsVal) (p : P) :
    handleMCPResponse st .noise = st
    ∧ handleMCPResponse st .badJson = st
    ∧ ((∀ e ∈ st.requestQueue, e.id ≠ i) → handleMCPResponse st (.msg i p) = st) := by
  refine ⟨rfl, rfl, fun h => ?_⟩
  rw [handleMCPResponse_msg, removeFirst_eq_none h]

theorem unmatched_and_malformed_dropped_witness :
    (∀ e ∈ demoSt3.requestQueue, e.id ≠ .num 9)
    ∧ handleMCPResponse demoSt3 (.msg (.num 9) 3) = demoSt3 :=
  ⟨by decide,
    (unmatched_and_malformed_dropped demoSt3 (.num 9) 3).2.2 (by decide)⟩

/-- C7.  Every call gets the one fixed deadline window `timeoutMs = 120000`
measured from its registration instant (the deadline expression does not
depend on the request); when the timer fires while the call is still in
flight, the entry is removed from the in-flight set and the call's promise
is rejected with the timeout error; a response bearing that identifier
arriving after the expiry is dropped as unmatched. -/
theorem timeout_policy {P : Type} (st : BridgeState P) (e : Entry) (i : JsVal)
    (p : P)
    (hmem : e ∈ st.requestQueue) (hid : e.id = i)
    (hnodup : (st.requestQueue.map Entry.id).Nodup)
    (hfresh : ∀ q ∈ st.outcomes, q.1 ≠ e.token) :
    (∀ (st2 : BridgeState P) (req : Request P) (now : Nat),
      (forwardToMCP st2 req now).requestQueue
        = st2.requestQueue
          ++ [⟨st2.nextToken, effectiveId req.id now, now + timeoutMs⟩])
    ∧ timeoutMs = 120000
    ∧ (∀ f ∈ (fireTimeout st e.token i).requestQueue, f.id ≠ i)
    ∧ List.lookup e.token (fireTimeout st e.token i).outcomes
        = some Outcome.timeoutErr
    ∧ handleMCPResponse (fireTimeout st e.token i) (.msg i p)
        = fireTimeout st e.token i := by
  obtain ⟨rest, hrf⟩ := removeFirst_of_nodup hnodup hmem hid
  have hnone : ∀ f ∈ rest, f.id ≠ i := not_mem_id_removeFirst hnodup hrf
  have hstep : fireTimeout st e.token i
      = settle { st with requestQueue := rest } e.token .timeoutErr := by
    rw [fireTimeout_eq, hrf]
  have hq : (fireTimeout st e.token i).requestQueue = rest := by
    rw [hstep, settle_requestQueue]
  have hout : (fireTimeout st e.token i).outcomes
      = st.outcomes ++ [(e.token, Outcome.timeoutErr)] := by
    rw [hstep, @settle_of_fresh P { st with requestQueue := rest } e.token
      Outcome.timeoutErr hfresh]
  refine ⟨fun _ _ _ => rfl, rfl, by rw [hq]; exact hnone, ?_, ?_⟩
  · rw [hout]
    have : st.outcomes ++ [(e.token, Outcome.timeoutErr)]
        = st.outcomes ++ (e.token, Outcome.timeoutErr) :: [] := rfl
    rw [this]
    exact lookup_skip e.token Outcome.timeoutErr st.outcomes [] hfresh
  · rw [handleMCPResponse_msg]
    have : removeFirst i (fireTimeout st e.token i).requestQueue = none := by
      rw [hq]
      exact removeFirst_eq_none hnone
    rw [this]

theorem timeout_policy_witness :
    ((⟨0, .num 5, 100⟩ : Entry) ∈ demoSt3.requestQueue
      ∧ (demoSt3.requestQueue.map Entry.id).Nodup)
    ∧ List.lookup 0 (fireTimeout demoSt3 0 (.num 5)).outcomes
        = some Outcome.timeoutErr
    ∧ handleMCPResponse (fireTimeout demoSt3 0 (.num 5)) (.msg (.num 5) 3)
        = fireTimeout demoSt3 0 (.num 5) :=
  ⟨⟨by decide, by decide⟩,
    (timeout_policy demoSt3 ⟨0, .num 5, 100⟩ (.num 5) 3 (by decide) (by decide)
      (by decide) (by decide)).2.2.2.1,
    (timeout_policy demoSt3 ⟨0, .num 5, 100⟩ (.num 5) 3 (by decide) (by decide)
      (by decide) (by decide)).2.2.2.2⟩

/-- C8.  If any required worker environment value (`KIWI_BASE_URL` or
`KIWI_TOKEN`) is falsy at startup, startup exits the whole process with code
1 (fatal, nothing further runs, no retry); when both are present and
non-empty, the worker is spawned with exactly those values injected into its
environment (plus the defaulted log level). -/
theorem startup_env_validation (u t l : Option String) :
    ((envFalsy u || envFalsy t) = true → initializeMCPEnv u t l = .fatalExit 1)
    ∧ (∀ us ts : String, us ≠ emptyStr → ts ≠ emptyStr →
        initializeMCPEnv (some us) (some ts) l
          = .spawned us ts (if envFalsy l then infoLevel else l.getD emptyStr)) := by
  constructor
  · intro h
    rw [initializeMCPEnv, if_pos h]
  · intro us ts hus hts
    have hc : (envFalsy (some us) || envFalsy (some ts)) = false := by
      simp [envFalsy, emptyStr] at hus hts ⊢
      exact ⟨hus, hts⟩
    rw [initializeMCPEnv, hc]
    rfl

/-- A sample base URL. -/
def demoUrl : String := "http-kiwi-example"

/-- A sample API token. -/
def demoToken : String := "token123"

theorem startup_env_validation_witness :
    ((envFalsy none || envFalsy (some demoToken)) = true
      ∧ initializeMCPEnv none (some demoToken) none = .fatalExit 1)
    ∧ (demoUrl ≠ emptyStr ∧ demoToken ≠ emptyStr
      ∧ initializeMCPEnv (some demoUrl) (some demoToken) none
          = .spawned demoUrl demoToken infoLevel) :=
  ⟨⟨by decide,
      (startup_env_validation none (some demoToken) none).1 (by decide)⟩,
    by decide, by decide,
    (startup_env_validation (some demoUrl) (some demoToken) none).2
      demoUrl demoToken (by decide) (by decide)⟩

theorem removeFirst_append_last {i : JsVal} {A : List Entry} {e : Entry}
    (hA : ∀ f ∈ A, f.id ≠ i) (he : e.id = i) :
    removeFirst i (A ++ [e]) = some (e, A) := by
  induction A with
  | nil =>
    rw [List.nil_append]
    unfold removeFirst
    rw [if_pos he]
  | cons g A' ih =>
    rw [List.cons_append]
    unfold removeFirst
    rw [if_neg (hA g (List.mem_cons_self g A')),
      ih (fun f hf => hA f (List.mem_cons_of_mem g hf))]
    rfl

/-- C9.  When an incoming request's `id` field is falsy (absent, null, 0, or
the empty string), `forwardToMCP` registers the pending call under the
freshly generated `Date.now()` identifier, yet writes the original request
body unchanged to the worker's stdin — the generated identifier is never
injected into it.  Hence a worker response echoing the request's own (falsy)
id matches nothing, and the call terminates via its own timeout rejection. -/
theorem falsy_id_behavior {P : Type} (st : BridgeState P) (req : Request P)
    (now : Nat) (p : P)
    (hfalsy : req.id.falsy = true) (hnow : 0 < now)
    (htruthy : ∀ e ∈ st.requestQueue, e.id.falsy = false)
    (hno : ∀ e ∈ st.requestQueue, e.id ≠ .num now)
    (hfreshtok : ∀ q ∈ st.outcomes, q.1 ≠ st.nextToken) :
    (forwardToMCP st req now).wire = st.wire ++ [req]
    ∧ (forwardToMCP st req now).requestQueue
        = st.requestQueue ++ [⟨st.nextToken, .num now, now + timeoutMs⟩]
    ∧ handleMCPResponse (forwardToMCP st req now) (.msg req.id p)
        = forwardToMCP st req now
    ∧ List.lookup st.nextToken
        (fireTimeout (forwardToMCP st req now) st.nextToken (.num now)).outcomes
        = some Outcome.timeoutErr := by
  have heff : effectiveId req.id now = .num now := by
    rw [effectiveId, if_pos hfalsy]
  have hplain : (forwardToMCP st req now).requestQueue
      = st.requestQueue
        ++ [⟨st.nextToken, effectiveId req.id now, now + timeoutMs⟩] := rfl
  have h2 : (forwardToMCP st req now).requestQueue
      = st.requestQueue ++ [⟨st.nextToken, .num now, now + timeoutMs⟩] := by
    rw [hplain, heff]
  have hnumfalsy : (JsVal.num now).falsy = false := by
    simp [JsVal.falsy]
    omega
  have hqn : ∀ f ∈ (forwardToMCP st req now).requestQueue, f.id ≠ req.id := by
    rw [h2]
    intro f hf
    rcases List.mem_append.mp hf with h1 | h1
    · intro hh
      have hft := htruthy f h1
      rw [hh, hfalsy] at hft
      cases hft
    · rcases List.mem_singleton.mp h1 with rfl
      intro hh
      rw [← hh, hnumfalsy] at hfalsy
      cases hfalsy
  have hrem : removeFirst (.num now) (forwardToMCP st req now).requestQueue
      = some (⟨st.nextToken, .num now, now + timeoutMs⟩, st.requestQueue) := by
    rw [h2]
    exact removeFirst_append_last hno rfl
  have hstep : fireTimeout (forwardToMCP st req now) st.nextToken (.num now)
      = settle { forwardToMCP st req now with requestQueue := st.requestQueue }
          st.nextToken Outcome.timeoutErr := by
    rw [fireTimeout_eq, hrem]
  have hout : (fireTimeout (forwardToMCP st req now) st.nextToken
      (.num now)).outcomes
      = st.outcomes ++ [(st.nextToken, Outcome.timeoutErr)] := by
    rw [hstep, @settle_of_fresh P
      { forwardToMCP st req now with requestQueue := st.requestQueue }
      st.nextToken Outcome.timeoutErr hfreshtok]
    rfl
  refine ⟨rfl, h2, ?_, ?_⟩
  · rw [handleMCPResponse_msg, removeFirst_eq_none hqn]
  · rw [hout]
    have hsing : st.outcomes ++ [(st.nextToken, Outcome.timeoutErr)]
        = st.outcomes ++ (st.nextToken, Outcome.timeoutErr) :: [] := rfl
    rw [hsing]
    exact lookup_skip st.nextToken Outcome.timeoutErr st.outcomes [] hfreshtok

theorem falsy_id_behavior_witness :
    ((JsVal.num 0).falsy = true ∧ 0 < 50)
    ∧ (forwardToMCP (initState Nat) ⟨.num 0, 77⟩ 50).wire = [⟨.num 0, 77⟩]
    ∧ handleMCPResponse (forwardToMCP (initState Nat) ⟨.num 0, 77⟩ 50)
        (.msg (.num 0) 9) = forwardToMCP (initState Nat) ⟨.num 0, 77⟩ 50
    ∧ List.lookup 0 (fireTimeout (forwardToMCP (initState Nat) ⟨.num 0, 77⟩ 50)
        0 (.num 50)).outcomes = some Outcome.timeoutErr :=
  ⟨⟨by decide, by decide⟩,
    (falsy_id_behavior (initState Nat) ⟨.num 0, 77⟩ 50 9 (by decide) (by decide)
      (by decide) (by decide) (by decide)).1,
    (falsy_id_behavior (initState Nat) ⟨.num 0, 77⟩ 50 9 (by decide) (by decide)
      (by decide) (by decide) (by decide)).2.2.1,
    (falsy_id_behavior (initState Nat) ⟨.num 0, 77⟩ 50 9 (by decide) (by decide)
      (by decide) (by decide) (by decide)).2.2.2⟩

/-- A state with two in-flight calls sharing one identifier (the code allows
this: registration has no duplicate check). -/
def twoCalls (P : Type) (tA tB dA dB : Nat) (i : JsVal) : BridgeState P :=
  { requestQueue := [⟨tA, i, dA⟩, ⟨tB, i, dB⟩], outcomes := [],
    nextToken := tB + 1, isReady := true, restartTimerSet := false, wire := [] }

/-- Both calls registered through `forwardToMCP` with id 5, at times 0 and
100, so the earlier timer fires at 120000, before the later call's own
deadline 120100. -/
def c10st0 : BridgeState Nat :=
  forwardToMCP (forwardToMCP (initState Nat) ⟨.num 5, 0⟩ 0) ⟨.num 5, 1⟩ 100

/-- The response for id 5 arrives and resolves the earlier call. -/
def c10st1 : BridgeState Nat := handleMCPResponse c10st0 (.msg (.num 5) 42)

/-- The earlier call's timer then fires (at 120000, before the later call's
deadline 120100). -/
def c10st2 : BridgeState Nat := fireTimeout c10st1 0 (.num 5)

/-- C10 counterexample.  With two same-id calls, after the earlier call is
resolved by a response, the earlier call's timer removes the later call's
entry from the in-flight set — but contrary to the claim the later call is
NOT rejected with the timeout error: the rejection is invoked on the earlier
call's own already-settled promise (a no-op), so the later call (token 1)
receives no outcome at all. -/
theorem timer_no_timeout_for_other_call :
    c10st1.requestQueue = [⟨1, .num 5, 120100⟩]
    ∧ c10st2.requestQueue = []
    ∧ c10st2.outcomes = [(0, Outcome.success (.num 5) 42)]
    ∧ List.lookup 1 c10st2.outcomes = none := by decide

/-- C10 amended.  Under duplicate identifiers, after the earlier call
(token `tA`) is resolved by a response, the earlier call's timer finds the
later same-identifier entry (token `tB`), removes it from the in-flight set
even though that call's own deadline is distinct, and invokes the timeout
rejection on the earlier call's own already-settled promise — a no-op — so
the later call's registration is destroyed while that call receives no
outcome at all: one call's timer can terminate a different call without
notifying it. -/
theorem timer_terminates_other_call {P : Type} (tA tB dA dB : Nat) (i : JsVal)
    (p : P) (hne : tA ≠ tB) :
    (handleMCPResponse (twoCalls P tA tB dA dB i) (.msg i p)).requestQueue
        = [⟨tB, i, dB⟩]
    ∧ (fireTimeout (handleMCPResponse (twoCalls P tA tB dA dB i) (.msg i p))
        tA i).requestQueue = []
    ∧ (fireTimeout (handleMCPResponse (twoCalls P tA tB dA dB i) (.msg i p))
        tA i).outcomes = [(tA, Outcome.success i p)]
    ∧ List.lookup tB (fireTimeout
        (handleMCPResponse (twoCalls P tA tB dA dB i) (.msg i p)) tA i).outcomes
        = none := by
  set st0 := twoCalls P tA tB dA dB i with hst0def
  set st1 := handleMCPResponse st0 (.msg i p) with hst1def
  set st2 := fireTimeout st1 tA i with hst2def
  have hrem1 : removeFirst i st0.requestQueue
      = some (⟨tA, i, dA⟩, [⟨tB, i, dB⟩]) := by
    simp [hst0def, twoCalls, removeFirst]
  have hst1 : st1 = settle { st0 with requestQueue := [⟨tB, i, dB⟩] } tA
      (Outcome.success i p) := by
    rw [hst1def, handleMCPResponse_msg, hrem1]
  have hf0 : ∀ q ∈ ({ st0 with requestQueue := [⟨tB, i, dB⟩] }
      : BridgeState P).outcomes, q.1 ≠ tA := by
    intro q hq
    simp [hst0def, twoCalls] at hq
  have hq1 : st1.requestQueue = [⟨tB, i, dB⟩] := by
    rw [hst1, settle_requestQueue]
  have hout1 : st1.outcomes = [(tA, Outcome.success i p)] := by
    rw [hst1, @settle_of_fresh P { st0 with requestQueue := [⟨tB, i, dB⟩] } tA
      (Outcome.success i p) hf0]
    simp [hst0def, twoCalls]
  have hrem2 : removeFirst i st1.requestQueue = some (⟨tB, i, dB⟩, []) := by
    rw [hq1]
    simp [removeFirst]
  have hst2 : st2 = settle { st1 with requestQueue := [] } tA
      Outcome.timeoutErr := by
    rw [hst2def, fireTimeout_eq, hrem2]
  have hsettled : settle { st1 with requestQueue := [] } tA Outcome.timeoutErr
      = { st1 with requestQueue := [] } :=
    settle_of_settled Outcome.timeoutErr
      ⟨(tA, Outcome.success i p), by
        show (tA, Outcome.success i p) ∈ st1.outcomes
        rw [hout1]
        exact List.mem_singleton.mpr rfl, rfl⟩
  have hq2 : st2.requestQueue = [] := by
    rw [hst2, hsettled]
  have hout2 : st2.outcomes = [(tA, Outcome.success i p)] := by
    rw [hst2, hsettled]
    show st1.outcomes = _
    exact hout1
  have hbe : (tB == tA) = false :=
    beq_eq_false_iff_ne.mpr (fun hh => hne hh.symm)
  refine ⟨hq1, hq2, hout2, ?_⟩
  rw [hout2]
  simp [List.lookup, hbe]

theorem timer_terminates_other_call_witness :
    (0 : Nat) ≠ 1
    ∧ (fireTimeout (handleMCPResponse (twoCalls Nat 0 1 120000 120100 (.num 5))
        (.msg (.num 5) 42)) 0 (.num 5)).requestQueue = []
    ∧ List.lookup 1 (fireTimeout
        (handleMCPResponse (twoCalls Nat 0 1 120000 120100 (.num 5))
          (.msg (.num 5) 42)) 0 (.num 5)).outcomes = none :=
  ⟨by decide,
    (timer_terminates_other_call 0 1 120000 120100 (.num 5) 42 (by decide)).2.1,
    (timer_terminates_other_call 0 1 120000 120100 (.num 5) 42
      (by decide)).2.2.2⟩

end KiwiBridge
